import Mathlib

/-!
Verification of the proof-object aggregator and conjectured-security estimator
(`common/src/proof/mod.rs`).

Modelling conventions:
- Rust machine integers (`u8`, `u32`, `u64`, `usize` on a 64-bit platform) are
  embedded as `Nat` with explicit width checks at every operation of the source
  that can overflow, underflow, or divide by zero.  A Rust arithmetic panic
  (overflow-checked semantics) is represented by an explicit failure value
  (`none`, or `SecurityOutcome.overflow`) rather than by wrapping; a
  truncating `as` cast, which never panics, is `% 2^width`.
- `ProofOptions` and `math::utils::log2` are used by the source file but their
  definitions live outside it; they are modelled from the spec and marked so.
-/

/-- Width of `usize` on the 64-bit platform assumed by the spec. -/
def usizeBits : Nat := 64

/-- Number of values of a `u32`; a `usize` to `u32` cast reduces modulo this. -/
def u32Size : Nat := 2 ^ 32

/-- Constant `GRINDING_CONTRIBUTION_FLOOR: u32 = 80` from the source. -/
def GRINDING_CONTRIBUTION_FLOOR : Nat := 80

/-- Modelled from the spec: `ProofOptions` (defined outside the embedded file).
The spec lists its accessors: blowup factor, field-extension degree (the source
calls `options.field_extension().degree()`), the configured hash function's
fixed collision-resistance bit count (`options.hash_fn().collision_resistance()`),
number of query rounds, and grinding factor. -/
structure ProofOptions where
  blowup_factor : Nat
  field_extension_degree : Nat
  hash_collision_resistance : Nat
  num_queries : Nat
  grinding_factor : Nat
deriving DecidableEq

/-- Collaborator artifact `Commitments`: only contract is serializability. -/
structure Commitments where
  bytes : List Nat
deriving DecidableEq

/-- Collaborator artifact `Queries`. -/
structure Queries where
  bytes : List Nat
deriving DecidableEq

/-- Collaborator artifact `OodFrame`. -/
structure OodFrame where
  bytes : List Nat
deriving DecidableEq

/-- Collaborator artifact `FriProof`. -/
structure FriProof where
  bytes : List Nat
deriving DecidableEq

/-- `Context` from the source: `lde_domain_depth: u8`,
`field_modulus_bytes: Vec<u8>` (little-endian), and the proof options. -/
structure Context where
  lde_domain_depth : Nat
  field_modulus_bytes : List Nat
  options : ProofOptions
deriving DecidableEq

/-- `StarkProof` from the source: context plus collaborator artifacts and the
proof-of-work nonce (`u64`). -/
structure StarkProof where
  context : Context
  commitments : Commitments
  trace_queries : Queries
  constraint_queries : Queries
  ood_frame : OodFrame
  fri_proof : FriProof
  pow_nonce : Nat
deriving DecidableEq

/-- Fuel-driven bit length: number of binary digits of `n` (0 for 0). -/
def bitLenAux : Nat → Nat → Nat
  | 0, _ => 0
  | f + 1, n => if n = 0 then 0 else bitLenAux f (n / 2) + 1

/-- Bit length of a natural number (0 for 0); `bitLen n = Nat.log 2 n + 1`
for nonzero `n` (proved below). -/
def bitLen (n : Nat) : Nat := bitLenAux n n

/-- Rust `u8::leading_zeros`: count of leading zero bits in an 8-bit value. -/
def leading_zeros8 (b : Nat) : Nat := 8 - bitLen b

/-- Fuel-driven count of trailing zero bits. -/
def tzAux : Nat → Nat → Nat
  | 0, _ => 0
  | f + 1, n => if n % 2 = 1 then 0 else tzAux f (n / 2) + 1

/-- Rust `u64::trailing_zeros`: trailing zero bits of a 64-bit value
(64 for the value 0). -/
def trailing_zeros64 (n : Nat) : Nat := tzAux 64 n

/-- Modelled from the spec: `math::utils::log2` (defined outside the embedded
file); per the spec, `security_per_query = floor(log2(one_over_rho))`, so this
is the floor of the base-2 logarithm (0 for inputs 0 and 1).  Fuel-driven
auxiliary. -/
def log2Aux : Nat → Nat → Nat
  | 0, _ => 0
  | f + 1, n => if 2 ≤ n then log2Aux f (n / 2) + 1 else 0

/-- Modelled from the spec: floor of the base-2 logarithm. -/
def log2 (n : Nat) : Nat := log2Aux n n

/-- Loop of `get_num_modulus_bits`: the list holds the modulus bytes from most
significant to least significant, `num_bits` is the running `u32` bit budget;
a nonzero byte stops the scan, a zero byte costs 8 bits.  `none` models a
`u32` underflow panic of `num_bits -= ...` (reachable only when the initial
budget was truncated by the `as u32` cast). -/
def modBitsLoop : List Nat → Nat → Option Nat
  | [], _ => some 0
  | b :: rest, num_bits =>
    if b ≠ 0 then
      if num_bits < leading_zeros8 b then none
      else some (num_bits - leading_zeros8 b)
    else
      if num_bits < 8 then none
      else modBitsLoop rest (num_bits - 8)

/-- `get_num_modulus_bits` from the source: number of bits in the provided
modulus, encoded in little-endian byte order.  The budget is a `u32`:
`modulus_bytes.len() as u32 * 8` first truncates the length modulo `2^32`
(the `as` cast never panics), then the multiplication by 8 overflow-panics —
`none` — when the truncated length is at least `2^29`; the loop scans the
bytes in reverse. -/
def get_num_modulus_bits (modulus_bytes : List Nat) : Option Nat :=
  if u32Size ≤ (modulus_bytes.length % u32Size) * 8 then none
  else modBitsLoop modulus_bytes.reverse ((modulus_bytes.length % u32Size) * 8)

/-- Lines 124-131 of the source: query security with the grinding-factor
contribution.  `none` models a Rust panic: division by zero when
`trace_length = 0`, or `u32` overflow of the product or of the grinding sum. -/
def query_security_checked (options : ProofOptions)
    (lde_domain_size trace_length : Nat) : Option Nat :=
  if trace_length = 0 then none
  else
    let one_over_rho := lde_domain_size / trace_length
    let security_per_query := log2 one_over_rho
    let qs0 := security_per_query * (options.num_queries % u32Size)
    if u32Size ≤ qs0 then none
    else if GRINDING_CONTRIBUTION_FLOOR ≤ qs0 then
      if u32Size ≤ qs0 + options.grinding_factor then none
      else some (qs0 + options.grinding_factor)
    else some qs0

/-- `get_conjectured_security` from the source.  `none` models a Rust panic:
`u32` overflow of `base_field_size * degree`, underflow of
`field_size - lde_domain_size.trailing_zeros()`, a panic inside the query
security computation, or underflow of the final `min(...) - 1`. -/
def get_conjectured_security (options : ProofOptions) (base_field_size : Nat)
    (lde_domain_size trace_length : Nat) : Option Nat :=
  if u32Size ≤ base_field_size * options.field_extension_degree then none
  else if base_field_size * options.field_extension_degree <
      trailing_zeros64 lde_domain_size then none
  else
    let field_security := base_field_size * options.field_extension_degree -
      trailing_zeros64 lde_domain_size
    Option.bind (query_security_checked options lde_domain_size trace_length)
      (fun query_security =>
        if min (min field_security options.hash_collision_resistance)
            query_security = 0 then none
        else some (min (min field_security options.hash_collision_resistance)
            query_security - 1))

/-- Outcome of `security_level`: a numeric bit count, an arithmetic panic
(overflow, underflow, or division by zero), or the `unimplemented!` panic of
the provable-security branch. -/
inductive SecurityOutcome where
  | ok (bits : Nat)
  | overflow
  | unsupported
deriving DecidableEq

/-- `StarkProof::lde_domain_size`: `2usize.pow(lde_domain_depth)`; `none`
models the overflow panic when the power does not fit in `usize`. -/
def StarkProof.lde_domain_size (p : StarkProof) : Option Nat :=
  if 2 ^ p.context.lde_domain_depth < 2 ^ usizeBits then
    some (2 ^ p.context.lde_domain_depth)
  else none

/-- `StarkProof::trace_length`: `lde_domain_size() / blowup_factor` with
truncating integer division; `none` models a panic upstream in
`lde_domain_size` or a division by zero. -/
def StarkProof.trace_length (p : StarkProof) : Option Nat :=
  Option.bind p.lde_domain_size (fun lds =>
    if p.context.options.blowup_factor = 0 then none
    else some (lds / p.context.options.blowup_factor))

/-- `StarkProof::options` accessor. -/
def StarkProof.options (p : StarkProof) : ProofOptions := p.context.options

/-- Converts the checked numeric result into an outcome: a panic anywhere in
the arithmetic becomes the overflow outcome. -/
def outcomeOf (r : Option Nat) : SecurityOutcome :=
  match r with
  | some bits => SecurityOutcome.ok bits
  | none => SecurityOutcome.overflow

/-- `StarkProof::security_level`: conjectured security via
`get_conjectured_security` applied to `base_field_size_bits`,
`lde_domain_size()` and `trace_length()`, or the `unimplemented!` panic (an
explicit unsupported-operation outcome) when `conjectured` is false.  The
source binds `base_field_size_bits` before the branch, but only the
conjectured branch consumes it; the computation is placed there so that the
non-conjectured branch is exactly the `unimplemented!` outcome. -/
def StarkProof.security_level (p : StarkProof) (conjectured : Bool) :
    SecurityOutcome :=
  if conjectured then
    outcomeOf (Option.bind
      (get_num_modulus_bits p.context.field_modulus_bytes)
      (fun base_field_size_bits =>
        Option.bind p.lde_domain_size (fun lds =>
          Option.bind p.trace_length (fun tl =>
            get_conjectured_security p.context.options base_field_size_bits
              lds tl))))
  else SecurityOutcome.unsupported

/-- Little-endian value of a byte sequence (the integer the spec says the
modulus bytes encode). -/
def leValue : List Nat → Nat
  | [] => 0
  | b :: rest => b + 256 * leValue rest

/-- Big-endian value of a byte sequence (most significant byte first); used to
reason about the reversed scan of `get_num_modulus_bits`. -/
def beValue : List Nat → Nat
  | [] => 0
  | b :: rest => b * 2 ^ (8 * rest.length) + beValue rest

/-- Written from the spec's formula: `field_security =
base_field_size_bits * field_extension_degree - log2(lde_domain_size)`, where
`log2` of the domain is the domain depth; `base_field_size_bits` is the
successfully computed modulus bit length. -/
def fieldSecuritySpec (p : StarkProof) (base_field_size_bits : Nat) : Nat :=
  base_field_size_bits * p.context.options.field_extension_degree -
    p.context.lde_domain_depth

/-- Written from the spec's formula: the grinding floor rule — grinding is
credited exactly when the raw query security reaches the floor. -/
def grindedQuerySecurity (spq q g : Nat) : Nat :=
  if GRINDING_CONTRIBUTION_FLOOR ≤ spq * q then spq * q + g else spq * q

/-- Written from the spec's formula:
`security_per_query = floor(log2(lde_domain_size / trace_length))`. -/
def securityPerQuerySpec (p : StarkProof) : Nat :=
  log2 (2 ^ p.context.lde_domain_depth /
    (2 ^ p.context.lde_domain_depth / p.context.options.blowup_factor))

/-- Written from the spec's formula: query security after the grinding rule,
with the `usize` to `u32` cast of `num_queries` made explicit. -/
def querySecuritySpec (p : StarkProof) : Nat :=
  grindedQuerySecurity (securityPerQuerySpec p)
    (p.context.options.num_queries % u32Size) p.context.options.grinding_factor

/-- Written from the spec's formula: the conjectured security level
`min(field_security, hash_fn_security, query_security) - 1`. -/
def conjecturedSecuritySpec (p : StarkProof) (base_field_size_bits : Nat) :
    Nat :=
  min (min (fieldSecuritySpec p base_field_size_bits)
    p.context.options.hash_collision_resistance) (querySecuritySpec p) - 1

/-- Replaces the number of queries of a proof, keeping every other field. -/
def setNumQueries (p : StarkProof) (q : Nat) : StarkProof :=
  ⟨⟨p.context.lde_domain_depth, p.context.field_modulus_bytes,
    ⟨p.context.options.blowup_factor, p.context.options.field_extension_degree,
      p.context.options.hash_collision_resistance, q,
      p.context.options.grinding_factor⟩⟩,
    p.commitments, p.trace_queries, p.constraint_queries, p.ood_frame,
    p.fri_proof, p.pow_nonce⟩

/-- Builds a proof with the given context parameters and trivial collaborator
artifacts (those are never read by the functions under verification). -/
def mkProof (depth : Nat) (modulus : List Nat) (b e h q g : Nat) : StarkProof :=
  ⟨⟨depth, modulus, ⟨b, e, h, q, g⟩⟩, ⟨[]⟩, ⟨[]⟩, ⟨[]⟩, ⟨[]⟩, ⟨[]⟩, 0⟩

/-- Eight 0xFF bytes: little-endian encoding of `2^64 - 1`. -/
def ff8 : List Nat := [255, 255, 255, 255, 255, 255, 255, 255]

/-- A proof over a 1-bit base field (modulus bytes `[0x01]`), extension degree
1, depth 4 and blowup 2: valid per the conditions of the corresponding claim,
yet the `u32` subtraction `field_size - trailing_zeros` underflows. -/
def cex1 : StarkProof := mkProof 4 [1] 2 1 128 10 0

/-- A proof whose blowup factor 3 does not divide the LDE domain size
`2^3 = 8`: the quotient 2 is silently truncated. -/
def cex2 : StarkProof := mkProof 3 ff8 3 2 128 50 0

/-- Grinding-floor scenario: `security_per_query * num_queries = 1 * 79`. -/
def proof79 : StarkProof := mkProof 10 ff8 2 2 128 79 20

/-- Grinding-floor scenario: `security_per_query * num_queries = 1 * 80`. -/
def proof80 : StarkProof := mkProof 10 ff8 2 2 128 80 20

/-- A fully in-range proof: 64-bit modulus, degree 2, depth 10, blowup 8,
32 queries, grinding 16, 128-bit hash. -/
def wp1 : StarkProof := mkProof 10 ff8 8 2 128 32 16

/-- A proof with depth 5 (domain 32). -/
def wp6a : StarkProof := mkProof 5 [1] 2 1 128 1 0

/-- A proof with depth 64, whose domain size overflows `usize`. -/
def wp6b : StarkProof := mkProof 64 [1] 2 1 128 1 0

/-- A proof with depth 6 and blowup 4 (which divides `2^6`). -/
def wp7 : StarkProof := mkProof 6 ff8 4 2 128 16 0

/-- Base proof for the query-count monotonicity witness (its query count is
overridden through `setNumQueries`). -/
def wp8 : StarkProof := mkProof 10 ff8 8 2 128 0 16

/-- A shared context for two proofs differing in every non-context field. -/
def ctx9 : Context := ⟨10, ff8, ⟨8, 2, 128, 32, 16⟩⟩

/-- First proof over `ctx9`: empty artifacts, nonce 0. -/
def wp9a : StarkProof := ⟨ctx9, ⟨[]⟩, ⟨[]⟩, ⟨[]⟩, ⟨[]⟩, ⟨[]⟩, 0⟩

/-- Second proof over `ctx9`: different artifacts and nonce. -/
def wp9b : StarkProof := ⟨ctx9, ⟨[1]⟩, ⟨[2]⟩, ⟨[3]⟩, ⟨[4]⟩, ⟨[5]⟩, 7⟩

/-! ## Helper lemmas about the fuel-driven arithmetic helpers -/

/-- Auxiliary: `tzAux` computes the exponent on exact powers of two. -/
theorem tzAux_pow : ∀ (f k : Nat), k < f → tzAux f (2 ^ k) = k := by
  intro f
  induction f with
  | zero => intro k hk; omega
  | succ f ih =>
    intro k hk
    cases k with
    | zero => simp [tzAux]
    | succ j =>
      have hmod : 2 ^ (j + 1) % 2 = 0 := by
        have : 2 ^ (j + 1) = 2 ^ j * 2 := by rw [Nat.pow_succ]
        rw [this, Nat.mul_mod_left]
      have hdiv : 2 ^ (j + 1) / 2 = 2 ^ j := by
        rw [Nat.pow_succ, Nat.mul_div_cancel _ (by omega)]
      simp only [tzAux, hmod]
      rw [if_neg (by omega), hdiv, ih j (by omega)]

/-- `u64::trailing_zeros` of `2^k` is `k` for any in-range exponent. -/
theorem trailing_zeros64_pow (k : Nat) (hk : k ≤ 63) :
    trailing_zeros64 (2 ^ k) = k :=
  tzAux_pow 64 k (by omega)

/-- Auxiliary: `log2Aux` computes the exponent on exact powers of two. -/
theorem log2Aux_pow : ∀ (f k : Nat), k ≤ f → log2Aux f (2 ^ k) = k := by
  intro f
  induction f with
  | zero => intro k hk; simp [log2Aux, Nat.le_zero.mp hk]
  | succ f ih =>
    intro k hk
    cases k with
    | zero => simp [log2Aux]
    | succ j =>
      have h2 : 2 ≤ 2 ^ (j + 1) := by
        calc 2 = 2 ^ 1 := by norm_num
          _ ≤ 2 ^ (j + 1) := Nat.pow_le_pow_right (by omega) (by omega)
      have hdiv : 2 ^ (j + 1) / 2 = 2 ^ j := by
        rw [Nat.pow_succ, Nat.mul_div_cancel _ (by omega)]
      simp only [log2Aux, if_pos h2]
      rw [hdiv, ih j (by omega)]

/-- The modelled `log2` recovers the exponent of a power of two. -/
theorem log2_pow (k : Nat) : log2 (2 ^ k) = k :=
  log2Aux_pow (2 ^ k) k (Nat.le_of_lt (Nat.lt_two_pow k))

/-- Auxiliary: `bitLenAux` agrees with `Nat.log 2`-based bit length once the
fuel covers the input. -/
theorem bitLenAux_eq : ∀ (f n : Nat), n ≤ f →
    bitLenAux f n = if n = 0 then 0 else Nat.log 2 n + 1 := by
  intro f
  induction f with
  | zero => intro n hn; simp [Nat.le_zero.mp hn, bitLenAux]
  | succ f ih =>
    intro n hn
    by_cases h0 : n = 0
    · simp [h0, bitLenAux]
    · have hdivle : n / 2 ≤ f := by
        have hlt : n / 2 < n := Nat.div_lt_self (Nat.pos_of_ne_zero h0) one_lt_two
        omega
      simp only [bitLenAux, if_neg h0]
      rw [ih _ hdivle]
      by_cases h1 : n = 1
      · simp [h1, Nat.log_one_right]
      · have h2 : 2 ≤ n := by omega
        have hd0 : n / 2 ≠ 0 := by
          have : 1 ≤ n / 2 := Nat.one_le_div_iff (by omega) |>.mpr h2
          omega
        rw [if_neg hd0]
        have hlog : Nat.log 2 (n / 2) = Nat.log 2 n - 1 := Nat.log_div_base 2 n
        have hpos : 0 < Nat.log 2 n := Nat.log_pos (by omega) h2
        omega

/-- The fuel-driven `bitLen` equals `Nat.log 2 n + 1` for nonzero `n`. -/
theorem bitLen_eq (n : Nat) : bitLen n = if n = 0 then 0 else Nat.log 2 n + 1 :=
  bitLenAux_eq n n (Nat.le_refl n)

/-- A byte below 256 has bit length at most 8. -/
theorem bitLen_byte_le (b : Nat) (hb : b < 256) : bitLen b ≤ 8 := by
  rw [bitLen_eq]
  by_cases h0 : b = 0
  · simp [h0]
  · rw [if_neg h0]
    have hpow : b < 2 ^ 8 := by norm_num; omega
    have : Nat.log 2 b < 8 := Nat.log_lt_of_lt_pow h0 hpow
    omega

/-! ## Correctness of the modulus bit-length scan -/

/-- A list of bytes below 256 has big-endian value below `2^(8*length)`. -/
theorem beValue_lt : ∀ (l : List Nat), (∀ b ∈ l, b < 256) →
    beValue l < 2 ^ (8 * l.length) := by
  intro l
  induction l with
  | nil => intro _; simp [beValue]
  | cons b rest ih =>
    intro hall
    have hb : b < 256 := hall b (List.mem_cons_self b rest)
    have hr := ih (fun x hx => hall x (List.mem_cons_of_mem b hx))
    simp only [beValue, List.length_cons]
    have h1 : b * 2 ^ (8 * rest.length) ≤ 255 * 2 ^ (8 * rest.length) :=
      Nat.mul_le_mul_right _ (by omega)
    have h2 : 2 ^ (8 * (rest.length + 1)) = 256 * 2 ^ (8 * rest.length) := by
      rw [show 8 * (rest.length + 1) = 8 + 8 * rest.length by ring, pow_add]
      norm_num
    rw [h2]
    omega

/-- Appending one byte at the low end multiplies the big-endian value by 256
and adds the byte. -/
theorem beValue_append_single : ∀ (l : List Nat) (b : Nat),
    beValue (l ++ [b]) = 256 * beValue l + b := by
  intro l
  induction l with
  | nil => intro b; simp [beValue]
  | cons x l ih =>
    intro b
    have hlen : (l ++ [b]).length = l.length + 1 := by simp
    simp only [List.cons_append, beValue, List.append_eq]
    rw [ih, hlen]
    have h2 : 2 ^ (8 * (l.length + 1)) = 256 * 2 ^ (8 * l.length) := by
      rw [show 8 * (l.length + 1) = 8 + 8 * l.length by ring, pow_add]
      norm_num
    rw [h2]
    ring

/-- The big-endian value of the reversed list is the little-endian value. -/
theorem beValue_reverse : ∀ (bs : List Nat), beValue bs.reverse = leValue bs := by
  intro bs
  induction bs with
  | nil => simp [beValue, leValue]
  | cons b rest ih =>
    simp only [List.reverse_cons, beValue_append_single, ih, leValue]
    ring

/-- Base-2 logarithm of `b * 2^m + v` when `v` stays below `2^m`. -/
theorem log_two_mul_pow_add (b v m : Nat) (hb : 0 < b) (hv : v < 2 ^ m) :
    Nat.log 2 (b * 2 ^ m + v) = m + Nat.log 2 b := by
  apply Nat.log_eq_of_pow_le_of_lt_pow
  · have h1 : 2 ^ Nat.log 2 b ≤ b := Nat.pow_log_le_self 2 (by omega)
    calc 2 ^ (m + Nat.log 2 b) = 2 ^ m * 2 ^ Nat.log 2 b := pow_add 2 m _
      _ ≤ 2 ^ m * b := Nat.mul_le_mul_left _ h1
      _ = b * 2 ^ m := Nat.mul_comm _ _
      _ ≤ b * 2 ^ m + v := Nat.le_add_right _ _
  · have h2 : b < 2 ^ (Nat.log 2 b + 1) := Nat.lt_pow_succ_log_self one_lt_two b
    have h3 : b * 2 ^ m ≤ (2 ^ (Nat.log 2 b + 1) - 1) * 2 ^ m :=
      Nat.mul_le_mul_right _ (by omega)
    have h4 : 2 ^ (m + Nat.log 2 b + 1) = 2 ^ (Nat.log 2 b + 1) * 2 ^ m := by
      rw [show m + Nat.log 2 b + 1 = (Nat.log 2 b + 1) + m by ring, pow_add]
    have h5 : 0 < 2 ^ (Nat.log 2 b + 1) := Nat.pos_pow_of_pos _ (by omega)
    rw [h4]
    have h6 : (2 ^ (Nat.log 2 b + 1) - 1) * 2 ^ m + 2 ^ m =
        2 ^ (Nat.log 2 b + 1) * 2 ^ m := by
      rw [Nat.sub_mul, one_mul]
      have : 2 ^ m ≤ 2 ^ (Nat.log 2 b + 1) * 2 ^ m :=
        Nat.le_mul_of_pos_left _ h5
      omega
    omega

/-- The byte scan starting from the full bit budget computes the exact bit
length of the big-endian value. -/
theorem modBitsLoop_correct : ∀ (l : List Nat), (∀ b ∈ l, b < 256) →
    modBitsLoop l (8 * l.length) =
      some (if beValue l = 0 then 0 else Nat.log 2 (beValue l) + 1) := by
  intro l
  induction l with
  | nil => simp [modBitsLoop, beValue]
  | cons b rest ih =>
    intro hall
    have hb : b < 256 := hall b (List.mem_cons_self b rest)
    have hrest := fun x hx => hall x (List.mem_cons_of_mem b hx)
    have hlz : leading_zeros8 b ≤ 8 := by
      unfold leading_zeros8
      omega
    by_cases h0 : b = 0
    · subst h0
      simp only [modBitsLoop, ne_eq, not_true_eq_false, if_false,
        List.length_cons, beValue]
      rw [if_neg (by omega)]
      have harith : 8 * (rest.length + 1) - 8 = 8 * rest.length := by omega
      rw [harith, ih hrest]
      simp
    · simp only [modBitsLoop, List.length_cons, beValue]
      rw [if_pos (by omega), if_neg (by omega)]
      simp only [Option.some.injEq]
      have hlen : bitLen b ≤ 8 := bitLen_byte_le b hb
      have hbl : bitLen b = Nat.log 2 b + 1 := by rw [bitLen_eq, if_neg h0]
      have hval : b * 2 ^ (8 * rest.length) + beValue rest ≠ 0 := by
        have : 0 < 2 ^ (8 * rest.length) := Nat.pos_pow_of_pos _ (by omega)
        have : 0 < b * 2 ^ (8 * rest.length) :=
          Nat.mul_pos (Nat.pos_of_ne_zero h0) this
        omega
      rw [if_neg hval]
      have hlog := log_two_mul_pow_add b (beValue rest) (8 * rest.length)
        (Nat.pos_of_ne_zero h0) (beValue_lt rest hrest)
      rw [hlog]
      unfold leading_zeros8
      omega

/-! ## Evaluation lemmas for the accessors and the estimator -/

/-- `lde_domain_size` succeeds with the exact power of two for in-range
depths. -/
theorem lde_domain_size_eval (p : StarkProof)
    (hd : p.context.lde_domain_depth ≤ 63) :
    p.lde_domain_size = some (2 ^ p.context.lde_domain_depth) := by
  unfold StarkProof.lde_domain_size
  rw [if_pos]
  calc 2 ^ p.context.lde_domain_depth ≤ 2 ^ 63 :=
      Nat.pow_le_pow_right (by omega) hd
    _ < 2 ^ usizeBits := by norm_num [usizeBits]

/-- `trace_length` succeeds with the truncating quotient whenever the domain
fits and the blowup factor is nonzero. -/
theorem trace_length_eval (p : StarkProof)
    (hd : p.context.lde_domain_depth ≤ 63)
    (hb : 0 < p.context.options.blowup_factor) :
    p.trace_length =
      some (2 ^ p.context.lde_domain_depth /
        p.context.options.blowup_factor) := by
  unfold StarkProof.trace_length
  rw [lde_domain_size_eval p hd]
  simp [Nat.pos_iff_ne_zero.mp hb]

/-- The query-security computation succeeds and follows the grinding floor
rule whenever the trace length is nonzero and the `u32` products fit. -/
theorem query_security_checked_eval (options : ProofOptions) (lds tl : Nat)
    (htl : tl ≠ 0)
    (hfit : log2 (lds / tl) * (options.num_queries % u32Size) < u32Size)
    (hgfit : GRINDING_CONTRIBUTION_FLOOR ≤
        log2 (lds / tl) * (options.num_queries % u32Size) →
      log2 (lds / tl) * (options.num_queries % u32Size) +
        options.grinding_factor < u32Size) :
    query_security_checked options lds tl =
      some (grindedQuerySecurity (log2 (lds / tl))
        (options.num_queries % u32Size) options.grinding_factor) := by
  unfold query_security_checked grindedQuerySecurity
  rw [if_neg htl]
  simp only
  rw [if_neg (by omega)]
  by_cases hg : GRINDING_CONTRIBUTION_FLOOR ≤
      log2 (lds / tl) * (options.num_queries % u32Size)
  · rw [if_pos hg, if_neg (by have := hgfit hg; omega), if_pos hg]
  · rw [if_neg hg, if_neg hg]

/-- Full evaluation of the conjectured security level on inputs where no
check fires: the result is exactly the spec's
`min(field_security, hash_fn_security, query_security) - 1`. -/
theorem security_level_eval (p : StarkProof) (B : Nat)
    (hB : get_num_modulus_bits p.context.field_modulus_bytes = some B)
    (hd : p.context.lde_domain_depth ≤ 63)
    (hb : 0 < p.context.options.blowup_factor)
    (htl : 0 < 2 ^ p.context.lde_domain_depth /
      p.context.options.blowup_factor)
    (hfs : B * p.context.options.field_extension_degree < u32Size)
    (hcap : p.context.lde_domain_depth ≤
      B * p.context.options.field_extension_degree)
    (hqfit : securityPerQuerySpec p *
      (p.context.options.num_queries % u32Size) < u32Size)
    (hgfit : GRINDING_CONTRIBUTION_FLOOR ≤
        securityPerQuerySpec p * (p.context.options.num_queries % u32Size) →
      securityPerQuerySpec p * (p.context.options.num_queries % u32Size) +
        p.context.options.grinding_factor < u32Size)
    (hpos : 0 < min (min (fieldSecuritySpec p B)
        p.context.options.hash_collision_resistance) (querySecuritySpec p)) :
    p.security_level true =
      SecurityOutcome.ok (conjecturedSecuritySpec p B) := by
  have htz : trailing_zeros64 (2 ^ p.context.lde_domain_depth) =
      p.context.lde_domain_depth := trailing_zeros64_pow _ hd
  have hqs := query_security_checked_eval p.context.options
    (2 ^ p.context.lde_domain_depth)
    (2 ^ p.context.lde_domain_depth / p.context.options.blowup_factor)
    (by omega)
    (by simpa [securityPerQuerySpec] using hqfit)
    (by simpa [securityPerQuerySpec] using hgfit)
  have hstart : p.security_level true =
      outcomeOf (Option.bind
        (get_num_modulus_bits p.context.field_modulus_bytes)
        (fun base_field_size_bits =>
          Option.bind p.lde_domain_size (fun lds =>
            Option.bind p.trace_length (fun tl =>
              get_conjectured_security p.context.options base_field_size_bits
                lds tl)))) :=
    rfl
  rw [hstart, hB]
  simp only [Option.some_bind]
  rw [lde_domain_size_eval p hd]
  simp only [Option.some_bind]
  rw [trace_length_eval p hd hb]
  simp only [Option.some_bind]
  unfold get_conjectured_security
  rw [if_neg (by omega), if_neg (by rw [htz]; omega)]
  simp only [htz]
  rw [hqs]
  simp only [Option.some_bind]
  rw [if_neg (by
    simp only [conjecturedSecuritySpec, fieldSecuritySpec, querySecuritySpec,
      securityPerQuerySpec] at hpos
    omega)]
  simp only [outcomeOf, conjecturedSecuritySpec, fieldSecuritySpec,
    querySecuritySpec, securityPerQuerySpec]

/-- The grinding floor rule is monotone in the number of queries. -/
theorem grindedQuerySecurity_mono (spq g : Nat) {a b : Nat} (hab : a ≤ b) :
    grindedQuerySecurity spq a g ≤ grindedQuerySecurity spq b g := by
  unfold grindedQuerySecurity
  have hm : spq * a ≤ spq * b := Nat.mul_le_mul (Nat.le_refl spq) hab
  by_cases h1 : GRINDING_CONTRIBUTION_FLOOR ≤ spq * a
  · rw [if_pos h1, if_pos (le_trans h1 hm)]
    omega
  · rw [if_neg h1]
    by_cases h2 : GRINDING_CONTRIBUTION_FLOOR ≤ spq * b
    · rw [if_pos h2]
      omega
    · rw [if_neg h2]
      exact hm

/-- Skipping high-order zero bytes consumes exactly 8 bits per byte. -/
theorem modBitsLoop_zeros : ∀ (n : Nat) (l : List Nat) (k : Nat),
    modBitsLoop (List.replicate n 0 ++ l) (k + 8 * n) = modBitsLoop l k := by
  intro n
  induction n with
  | zero => intro l k; simp
  | succ m ih =>
    intro l k
    rw [show List.replicate (m + 1) (0 : Nat) = 0 :: List.replicate m 0 from
      rfl, List.cons_append]
    simp only [modBitsLoop]
    rw [if_neg (by omega), if_neg (by omega)]
    have harith : k + 8 * (m + 1) - 8 = k + 8 * m := by omega
    rw [harith]
    exact ih l k

/-! ## Claims -/

/-- C1 counterexample: the input `cex1` is valid per the claim's conditions
(non-zero base field size, blowup factor at least 2, domain depth within the
platform word), yet the conjectured security level is the overflow outcome —
the `u32` subtraction `field_size - trailing_zeros(lde_domain_size)`
underflows (1 - 4) — not the claimed numeric `min(...) - 1`. -/
theorem conjectured_security_underflow_cex :
    (get_num_modulus_bits cex1.context.field_modulus_bytes = some 1 ∧
      2 ≤ cex1.context.options.blowup_factor ∧
      cex1.context.lde_domain_depth ≤ 63) ∧
    cex1.security_level true = SecurityOutcome.overflow := by
  constructor
  · exact ⟨by decide, by decide, by decide⟩
  · decide

/-- C1 (amended): for valid inputs — a modulus whose bit length the source
computes without panicking (`get_num_modulus_bits = some B` with `B` nonzero,
which bounds the byte length below `2^29`), blowup factor at least 2 and at
most the LDE domain size, depth within the platform word — that additionally
satisfy the field-capacity condition `lde_domain_depth ≤ B * degree` and
whose `u32` intermediates fit (the field-size product, the query product, the
grinding sum) and whose three security terms have a positive minimum, the
conjectured security level equals exactly
`min(field_security, hash_fn_security, query_security) - 1` with no overflow
or underflow. -/
theorem conjectured_security_formula (p : StarkProof) (B : Nat)
    (hB : get_num_modulus_bits p.context.field_modulus_bytes = some B)
    (_hBpos : 0 < B)
    (hb2 : 2 ≤ p.context.options.blowup_factor)
    (hd : p.context.lde_domain_depth ≤ 63)
    (hble : p.context.options.blowup_factor ≤ 2 ^ p.context.lde_domain_depth)
    (hfs : B * p.context.options.field_extension_degree < u32Size)
    (hcap : p.context.lde_domain_depth ≤
      B * p.context.options.field_extension_degree)
    (hqfit : securityPerQuerySpec p *
      (p.context.options.num_queries % u32Size) < u32Size)
    (hgfit : GRINDING_CONTRIBUTION_FLOOR ≤
        securityPerQuerySpec p * (p.context.options.num_queries % u32Size) →
      securityPerQuerySpec p * (p.context.options.num_queries % u32Size) +
        p.context.options.grinding_factor < u32Size)
    (hpos : 0 < min (min (fieldSecuritySpec p B)
        p.context.options.hash_collision_resistance) (querySecuritySpec p)) :
    p.security_level true =
      SecurityOutcome.ok (conjecturedSecuritySpec p B) :=
  security_level_eval p B hB hd (by omega) (Nat.div_pos hble (by omega)) hfs
    hcap hqfit hgfit hpos

/-- C1 witness: the amended claim applied to the concrete proof `wp1`, whose
conjectured security level evaluates to 111. -/
theorem conjectured_security_formula_witness :
    wp1.security_level true = SecurityOutcome.ok 111 := by
  have h := conjectured_security_formula wp1 64 (by decide) (by decide)
    (by decide) (by decide) (by decide) (by decide) (by decide) (by decide)
    (by decide) (by decide)
  rw [h]
  decide

/-- C2 (code bug evidence): the blowup factor 3 of `cex2` does not evenly
divide the LDE domain size 8, yet `trace_length` silently returns the
truncated quotient 2 (with `2 * 3 ≠ 8`) and `security_level` returns the
plain numeric result 99, not an InvalidInput outcome. -/
theorem trace_length_not_exact_division :
    cex2.context.options.blowup_factor = 3 ∧
    cex2.lde_domain_size = some 8 ∧
    cex2.trace_length = some 2 ∧
    2 * cex2.context.options.blowup_factor ≠ 8 ∧
    cex2.security_level true = SecurityOutcome.ok 99 := by
  refine ⟨by decide, by decide, by decide, by decide, by decide⟩

/-- C4: the grinding factor is added if and only if the pre-grinding query
security reaches the floor of 80; in particular `proof79`
(`security_per_query * num_queries = 79`, grinding 20) yields 78 — grinding
not credited — while `proof80` (`= 80`) yields 99, reflecting 100 before the
min and the trailing -1. -/
theorem grinding_floor_iff :
    (∀ (options : ProofOptions) (lds tl : Nat), tl ≠ 0 →
      log2 (lds / tl) * (options.num_queries % u32Size) < u32Size →
      (GRINDING_CONTRIBUTION_FLOOR ≤
          log2 (lds / tl) * (options.num_queries % u32Size) →
        log2 (lds / tl) * (options.num_queries % u32Size) +
          options.grinding_factor < u32Size) →
      query_security_checked options lds tl =
        some (if GRINDING_CONTRIBUTION_FLOOR ≤
            log2 (lds / tl) * (options.num_queries % u32Size)
          then log2 (lds / tl) * (options.num_queries % u32Size) +
            options.grinding_factor
          else log2 (lds / tl) * (options.num_queries % u32Size))) ∧
    proof79.security_level true = SecurityOutcome.ok 78 ∧
    proof80.security_level true = SecurityOutcome.ok 99 := by
  refine ⟨?_, by decide, by decide⟩
  intro options lds tl htl hfit hgfit
  have h := query_security_checked_eval options lds tl htl hfit hgfit
  rw [h]
  unfold grindedQuerySecurity
  rfl

/-- C4 witness: the general clause applied at concrete options (80 queries,
grinding 20, rate 2): the grinding term is credited, giving 100. -/
theorem grinding_floor_iff_witness :
    query_security_checked ⟨8, 2, 128, 80, 20⟩ 1024 512 = some 100 := by
  have h := grinding_floor_iff.1 ⟨8, 2, 128, 80, 20⟩ 1024 512 (by decide)
    (by decide) (by decide)
  rw [h]
  decide

/-- The little-endian value of an all-zero byte list is zero. -/
theorem leValue_replicate_zero : ∀ (n : Nat),
    leValue (List.replicate n 0) = 0 := by
  intro n
  induction n with
  | zero => rfl
  | succ m ih => simp [List.replicate_succ, leValue, ih]

/-- C5 counterexample: on the all-zero input of length `2^29` — whose
little-endian value is 0, so the exact bit length is 0 — the source does not
return that bit length: `modulus_bytes.len() as u32 * 8` overflows `u32`, an
arithmetic panic, modelled as the failure value. -/
theorem modulus_bits_length_overflow_cex :
    get_num_modulus_bits (List.replicate (2 ^ 29) 0) = none ∧
    leValue (List.replicate (2 ^ 29) 0) = 0 ∧
    get_num_modulus_bits (List.replicate (2 ^ 29) 0) ≠ some 0 := by
  have hmain : get_num_modulus_bits (List.replicate (2 ^ 29) (0 : Nat)) =
      none := by
    unfold get_num_modulus_bits
    rw [List.length_replicate]
    rw [if_pos (by norm_num [u32Size])]
  refine ⟨hmain, leValue_replicate_zero _, ?_⟩
  rw [hmain]
  simp

/-- C5 (amended): on every byte sequence whose `u32` bit budget `len * 8`
fits below `2^32`, `get_num_modulus_bits` returns exactly the bit length of
the little-endian value — the index of the highest set bit plus one, and 0
for the value zero; longer inputs overflow the budget and panic instead. -/
theorem modulus_bits_exact_bitlength (bs : List Nat)
    (h : ∀ b ∈ bs, b < 256) (hlen : bs.length * 8 < u32Size) :
    get_num_modulus_bits bs =
      some (if leValue bs = 0 then 0 else Nat.log 2 (leValue bs) + 1) := by
  unfold get_num_modulus_bits
  have hmod : bs.length % u32Size = bs.length := Nat.mod_eq_of_lt (by omega)
  rw [hmod, if_neg (by omega)]
  have h1 : ∀ b ∈ bs.reverse, b < 256 := by
    intro b hb
    exact h b (List.mem_reverse.mp hb)
  have h2 := modBitsLoop_correct bs.reverse h1
  rw [List.length_reverse] at h2
  rw [Nat.mul_comm bs.length 8, h2, beValue_reverse]

/-- C5 witness: eight 0xFF bytes encode `2^64 - 1`, whose bit length is 64. -/
theorem modulus_bits_exact_bitlength_witness :
    get_num_modulus_bits ff8 = some 64 := by
  have h := modulus_bits_exact_bitlength ff8 (by decide) (by decide)
  have hv : leValue ff8 = 18446744073709551615 := by decide
  rw [h, hv]
  rw [if_neg (by norm_num)]
  have hl : Nat.log 2 18446744073709551615 = 63 :=
    Nat.log_eq_of_pow_le_of_lt_pow (by norm_num) (by norm_num)
  rw [hl]

/-- C6: `lde_domain_size` returns exactly `2^depth` for every depth in
[0, 63], and fails for any depth whose power would overflow the 64-bit
platform word. -/
theorem lde_domain_size_pow_or_overflow (p : StarkProof) :
    (p.context.lde_domain_depth ≤ 63 →
      p.lde_domain_size = some (2 ^ p.context.lde_domain_depth)) ∧
    (64 ≤ p.context.lde_domain_depth → p.lde_domain_size = none) := by
  constructor
  · intro hd
    exact lde_domain_size_eval p hd
  · intro hd
    unfold StarkProof.lde_domain_size
    rw [if_neg (not_lt.mpr (Nat.pow_le_pow_right (by omega)
      (by simpa [usizeBits] using hd)))]

/-- C6 witness: depth 5 yields domain 32; depth 64 fails. -/
theorem lde_domain_size_pow_or_overflow_witness :
    wp6a.lde_domain_size = some 32 ∧ wp6b.lde_domain_size = none := by
  constructor
  · have h := (lde_domain_size_pow_or_overflow wp6a).1 (by decide)
    rw [h]
    decide
  · exact (lde_domain_size_pow_or_overflow wp6b).2 (by decide)

/-- C7: when the blowup factor divides the LDE domain size,
`trace_length * blowup_factor` recovers `lde_domain_size` exactly, and its
base-2 logarithm recovers the original depth. -/
theorem trace_length_roundtrip (p : StarkProof)
    (hd : p.context.lde_domain_depth ≤ 63)
    (hb : 0 < p.context.options.blowup_factor)
    (hdvd : p.context.options.blowup_factor ∣
      2 ^ p.context.lde_domain_depth) :
    ∃ t, p.trace_length = some t ∧
      p.lde_domain_size = some (t * p.context.options.blowup_factor) ∧
      log2 (t * p.context.options.blowup_factor) =
        p.context.lde_domain_depth := by
  refine ⟨2 ^ p.context.lde_domain_depth / p.context.options.blowup_factor,
    trace_length_eval p hd hb, ?_, ?_⟩
  · rw [Nat.div_mul_cancel hdvd]
    exact lde_domain_size_eval p hd
  · rw [Nat.div_mul_cancel hdvd, log2_pow]

/-- C7 witness: the round trip at depth 6 with blowup 4 gives trace 16. -/
theorem trace_length_roundtrip_witness :
    ∃ t, wp7.trace_length = some t ∧
      wp7.lde_domain_size = some (t * wp7.context.options.blowup_factor) ∧
      log2 (t * wp7.context.options.blowup_factor) =
        wp7.context.lde_domain_depth :=
  trace_length_roundtrip wp7 (by decide) (by decide) (by decide)

/-- C9: the conjectured security level depends only on the proof's context:
two proofs with equal contexts get the same result regardless of
commitments, queries, OOD frame, FRI proof, and nonce. -/
theorem security_depends_only_on_context (p1 p2 : StarkProof)
    (h : p1.context = p2.context) :
    p1.security_level true = p2.security_level true := by
  obtain ⟨c1, a1, b1, d1, e1, f1, g1⟩ := p1
  obtain ⟨c2, a2, b2, d2, e2, f2, g2⟩ := p2
  change c1 = c2 at h
  subst h
  rfl

/-- C9 witness: two proofs sharing `ctx9` but differing in all artifact
fields and the nonce get the same security level. -/
theorem security_depends_only_on_context_witness :
    wp9a.security_level true = wp9b.security_level true :=
  security_depends_only_on_context wp9a wp9b rfl

/-- C10 counterexample: padding the 8-byte modulus `ff8` with `2^29 - 8`
high-order zero bytes changes the result: the padded length makes
`len as u32 * 8` overflow `u32` — an arithmetic panic, modelled as the
failure value — while the unpadded input yields 64. -/
theorem modulus_bits_append_zeros_cex :
    get_num_modulus_bits (ff8 ++ List.replicate (2 ^ 29 - 8) 0) = none ∧
    get_num_modulus_bits ff8 = some 64 ∧
    get_num_modulus_bits (ff8 ++ List.replicate (2 ^ 29 - 8) 0) ≠
      get_num_modulus_bits ff8 := by
  have hL : (ff8 ++ List.replicate (2 ^ 29 - 8) (0 : Nat)).length =
      2 ^ 29 := by
    rw [List.length_append, List.length_replicate]
    norm_num [ff8]
  have hmain : get_num_modulus_bits (ff8 ++ List.replicate (2 ^ 29 - 8) 0) =
      none := by
    unfold get_num_modulus_bits
    rw [hL, if_pos (by norm_num [u32Size])]
  refine ⟨hmain, by decide, ?_⟩
  rw [hmain]
  decide

/-- C10 (amended): appending high-order zero bytes to a little-endian modulus
encoding leaves `get_num_modulus_bits` unchanged whenever the padded `u32`
bit budget `(len + n) * 8` still fits below `2^32`; padding that overflows
the budget panics instead. -/
theorem modulus_bits_append_zeros (bs : List Nat) (n : Nat)
    (hfit : (bs.length + n) * 8 < u32Size) :
    get_num_modulus_bits (bs ++ List.replicate n 0) =
      get_num_modulus_bits bs := by
  unfold get_num_modulus_bits
  have hlen : (bs ++ List.replicate n 0).length = bs.length + n := by simp
  rw [hlen]
  have hmod1 : (bs.length + n) % u32Size = bs.length + n :=
    Nat.mod_eq_of_lt (by omega)
  have hmod2 : bs.length % u32Size = bs.length := Nat.mod_eq_of_lt (by omega)
  rw [hmod1, hmod2]
  rw [if_neg (by omega), if_neg (by omega)]
  rw [List.reverse_append, List.reverse_replicate]
  have harith : (bs.length + n) * 8 = bs.length * 8 + 8 * n := by ring
  rw [harith]
  exact modBitsLoop_zeros n bs.reverse (bs.length * 8)

/-- C10 witness: padding `ff8` with four zero bytes (budget 96 bits, which
fits `u32`) leaves the bit length 64 unchanged. -/
theorem modulus_bits_append_zeros_witness :
    get_num_modulus_bits (ff8 ++ List.replicate 4 0) =
      get_num_modulus_bits ff8 :=
  modulus_bits_append_zeros ff8 4 (by decide)

/-- C8: with every other parameter fixed on valid inputs, the conjectured
security level is monotonically non-decreasing in the number of queries, is
always capped by `min(field_security, hash_fn_security) - 1`, and once the
query security of the smaller query count already reaches
`min(field_security, hash_fn_security)`, further queries leave the result
saturated at that cap. -/
theorem security_monotone_in_queries (p : StarkProof) (B q1 q2 : Nat)
    (hB : get_num_modulus_bits p.context.field_modulus_bytes = some B)
    (hd : p.context.lde_domain_depth ≤ 63)
    (hb : 0 < p.context.options.blowup_factor)
    (htl : 0 < 2 ^ p.context.lde_domain_depth /
      p.context.options.blowup_factor)
    (hfs : B * p.context.options.field_extension_degree < u32Size)
    (hcap : p.context.lde_domain_depth ≤
      B * p.context.options.field_extension_degree)
    (h12 : q1 ≤ q2) (hq2 : q2 < u32Size)
    (hqfit : securityPerQuerySpec p * q2 < u32Size)
    (hgfit : GRINDING_CONTRIBUTION_FLOOR ≤ securityPerQuerySpec p * q2 →
      securityPerQuerySpec p * q2 + p.context.options.grinding_factor <
        u32Size)
    (hpos : 0 < min (min (fieldSecuritySpec p B)
        p.context.options.hash_collision_resistance)
      (grindedQuerySecurity (securityPerQuerySpec p) q1
        p.context.options.grinding_factor)) :
    ∃ v1 v2,
      (setNumQueries p q1).security_level true = SecurityOutcome.ok v1 ∧
      (setNumQueries p q2).security_level true = SecurityOutcome.ok v2 ∧
      v1 ≤ v2 ∧
      v2 ≤ min (fieldSecuritySpec p B)
        p.context.options.hash_collision_resistance - 1 ∧
      (min (fieldSecuritySpec p B)
          p.context.options.hash_collision_resistance ≤
          grindedQuerySecurity (securityPerQuerySpec p) q1
            p.context.options.grinding_factor →
        v1 = min (fieldSecuritySpec p B)
          p.context.options.hash_collision_resistance - 1 ∧ v2 = v1) := by
  have hq1 : q1 < u32Size := lt_of_le_of_lt h12 hq2
  have hmono : securityPerQuerySpec p * q1 ≤ securityPerQuerySpec p * q2 :=
    Nat.mul_le_mul (Nat.le_refl _) h12
  have hgmono : grindedQuerySecurity (securityPerQuerySpec p) q1
        p.context.options.grinding_factor ≤
      grindedQuerySecurity (securityPerQuerySpec p) q2
        p.context.options.grinding_factor :=
    grindedQuerySecurity_mono _ _ h12
  have hqfit1 : securityPerQuerySpec (setNumQueries p q1) *
      ((setNumQueries p q1).context.options.num_queries % u32Size) <
        u32Size := by
    show securityPerQuerySpec p * (q1 % u32Size) < u32Size
    rw [Nat.mod_eq_of_lt hq1]
    omega
  have hgfit1 : GRINDING_CONTRIBUTION_FLOOR ≤
        securityPerQuerySpec (setNumQueries p q1) *
          ((setNumQueries p q1).context.options.num_queries % u32Size) →
      securityPerQuerySpec (setNumQueries p q1) *
          ((setNumQueries p q1).context.options.num_queries % u32Size) +
        (setNumQueries p q1).context.options.grinding_factor < u32Size := by
    show GRINDING_CONTRIBUTION_FLOOR ≤
        securityPerQuerySpec p * (q1 % u32Size) →
      securityPerQuerySpec p * (q1 % u32Size) +
        p.context.options.grinding_factor < u32Size
    rw [Nat.mod_eq_of_lt hq1]
    intro hfl
    have := hgfit (le_trans hfl hmono)
    omega
  have hqs1eq : querySecuritySpec (setNumQueries p q1) =
      grindedQuerySecurity (securityPerQuerySpec p) q1
        p.context.options.grinding_factor := by
    show grindedQuerySecurity (securityPerQuerySpec p) (q1 % u32Size)
        p.context.options.grinding_factor = _
    rw [Nat.mod_eq_of_lt hq1]
  have hpos1 : 0 < min (min (fieldSecuritySpec (setNumQueries p q1) B)
      (setNumQueries p q1).context.options.hash_collision_resistance)
      (querySecuritySpec (setNumQueries p q1)) := by
    show 0 < min (min (fieldSecuritySpec p B)
      p.context.options.hash_collision_resistance)
      (querySecuritySpec (setNumQueries p q1))
    rw [hqs1eq]
    exact hpos
  have hqfit2 : securityPerQuerySpec (setNumQueries p q2) *
      ((setNumQueries p q2).context.options.num_queries % u32Size) <
        u32Size := by
    show securityPerQuerySpec p * (q2 % u32Size) < u32Size
    rw [Nat.mod_eq_of_lt hq2]
    exact hqfit
  have hgfit2 : GRINDING_CONTRIBUTION_FLOOR ≤
        securityPerQuerySpec (setNumQueries p q2) *
          ((setNumQueries p q2).context.options.num_queries % u32Size) →
      securityPerQuerySpec (setNumQueries p q2) *
          ((setNumQueries p q2).context.options.num_queries % u32Size) +
        (setNumQueries p q2).context.options.grinding_factor < u32Size := by
    show GRINDING_CONTRIBUTION_FLOOR ≤
        securityPerQuerySpec p * (q2 % u32Size) →
      securityPerQuerySpec p * (q2 % u32Size) +
        p.context.options.grinding_factor < u32Size
    rw [Nat.mod_eq_of_lt hq2]
    exact hgfit
  have hqs2eq : querySecuritySpec (setNumQueries p q2) =
      grindedQuerySecurity (securityPerQuerySpec p) q2
        p.context.options.grinding_factor := by
    show grindedQuerySecurity (securityPerQuerySpec p) (q2 % u32Size)
        p.context.options.grinding_factor = _
    rw [Nat.mod_eq_of_lt hq2]
  have hpos2 : 0 < min (min (fieldSecuritySpec (setNumQueries p q2) B)
      (setNumQueries p q2).context.options.hash_collision_resistance)
      (querySecuritySpec (setNumQueries p q2)) := by
    show 0 < min (min (fieldSecuritySpec p B)
      p.context.options.hash_collision_resistance)
      (querySecuritySpec (setNumQueries p q2))
    rw [hqs2eq]
    exact lt_of_lt_of_le hpos (min_le_min (le_refl _) hgmono)
  have H1 := security_level_eval (setNumQueries p q1) B hB hd hb htl hfs hcap
    hqfit1 hgfit1 hpos1
  have H2 := security_level_eval (setNumQueries p q2) B hB hd hb htl hfs hcap
    hqfit2 hgfit2 hpos2
  have hc1 : conjecturedSecuritySpec (setNumQueries p q1) B =
      min (min (fieldSecuritySpec p B)
        p.context.options.hash_collision_resistance)
        (grindedQuerySecurity (securityPerQuerySpec p) q1
          p.context.options.grinding_factor) - 1 := by
    show min (min (fieldSecuritySpec p B)
        p.context.options.hash_collision_resistance)
        (querySecuritySpec (setNumQueries p q1)) - 1 = _
    rw [hqs1eq]
  have hc2 : conjecturedSecuritySpec (setNumQueries p q2) B =
      min (min (fieldSecuritySpec p B)
        p.context.options.hash_collision_resistance)
        (grindedQuerySecurity (securityPerQuerySpec p) q2
          p.context.options.grinding_factor) - 1 := by
    show min (min (fieldSecuritySpec p B)
        p.context.options.hash_collision_resistance)
        (querySecuritySpec (setNumQueries p q2)) - 1 = _
    rw [hqs2eq]
  refine ⟨conjecturedSecuritySpec (setNumQueries p q1) B,
    conjecturedSecuritySpec (setNumQueries p q2) B, H1, H2, ?_, ?_, ?_⟩
  · rw [hc1, hc2]
    exact Nat.sub_le_sub_right (min_le_min (le_refl _) hgmono) 1
  · rw [hc2]
    exact Nat.sub_le_sub_right (min_le_left _ _) 1
  · intro hsat
    constructor
    · rw [hc1, min_eq_left hsat]
    · rw [hc1, hc2, min_eq_left hsat, min_eq_left (le_trans hsat hgmono)]

/-- C8 witness: over `wp8`, raising the query count from 64 to 128 keeps the
result non-decreasing and — since the query security 208 of the smaller
count already exceeds the field/hash cap 118 — saturated at that cap. -/
theorem security_monotone_in_queries_witness :
    ∃ v1 v2,
      (setNumQueries wp8 64).security_level true = SecurityOutcome.ok v1 ∧
      (setNumQueries wp8 128).security_level true = SecurityOutcome.ok v2 ∧
      v1 ≤ v2 ∧
      v2 ≤ min (fieldSecuritySpec wp8 64)
        wp8.context.options.hash_collision_resistance - 1 ∧
      (min (fieldSecuritySpec wp8 64)
          wp8.context.options.hash_collision_resistance ≤
          grindedQuerySecurity (securityPerQuerySpec wp8) 64
            wp8.context.options.grinding_factor →
        v1 = min (fieldSecuritySpec wp8 64)
          wp8.context.options.hash_collision_resistance - 1 ∧ v2 = v1) :=
  security_monotone_in_queries wp8 64 64 128 (by decide) (by decide)
    (by decide) (by decide) (by decide) (by decide) (by decide) (by decide)
    (by decide) (by decide) (by decide)
